import Mathlib

/-!
Shallow embedding of the MIR optimization pass
`librustc_mir/transform/uninhabited_enum_branching.rs`.

The pass eliminates branches on uninhabited enum variants.  We model the
CFG data the pass reads and writes (basic blocks, statements, terminators,
places, locals) and the external oracles it consults (type layout,
discriminant-for-variant), then translate the pass's functions
(`get_discriminant_local`, `find_eligible_blocks`, `variant_discriminants`,
`run_pass`) directly from the source.

Modelling conventions:
- `Local` and `BasicBlock` identifiers are `Nat` indices.
- Discriminant tag values (`u128` in the source) are `Nat`: the pass only
  compares tags for equality, never does arithmetic on them, so no wrap-around
  behaviour is observable.
- The layout oracle `tcx.layout_of(param_env.and(ty))` and the
  `ty.discriminant_for_variant(tcx, idx)` query are folded into the `Ty`
  handle as fields (`layoutResult`, `discriminant_for_variant`): within one
  pass invocation `tcx` and the param-env are fixed, and the spec treats both
  queries as pure, side-effect-free services.
- Fallible steps (Rust panics: `unreachable!()`, `unwrap()` on `pop`,
  out-of-range indexing) are modelled by `Option`: `none` means the pass
  invocation dies with a panic.
- Rust's `continue` on a failed layout computation is modelled by returning
  the block unchanged.
-/

/-- Abi of a variant layout.  The pass only distinguishes
`Abi::Uninhabited` from everything else, so all other Abi values are
abstracted as `other n`. -/
inductive Abi where
  | uninhabited
  | other (n : Nat)
deriving DecidableEq, Repr

/-- The layout of a single variant; the pass reads only its abi. -/
structure VariantLayout where
  abi : Abi
deriving DecidableEq, Repr

/-- Variants from rustc layout: either a single statically-chosen variant
index, or one layout per declared variant (in declaration order). -/
inductive Variants where
  | single (index : Nat)
  | multiple (variants : List VariantLayout)
deriving DecidableEq, Repr

/-- The result of layout computation for a type; the pass reads only
`layout.details.variants`, which we store directly. -/
structure TyLayout where
  variants : Variants
deriving DecidableEq, Repr

/-- Handle to a declared type, bundling the oracle answers the pass needs:
the `is_enum()` predicate, the (fallible) layout computation
`tcx.layout_of(param_env.and(ty))` (`none` = `Err`), and the
`discriminant_for_variant` query, which the spec assumes total on valid
variant indices (the source unwraps it). -/
structure Ty where
  is_enum : Bool
  layoutResult : Option TyLayout
  discriminant_for_variant : Nat → Nat

/-- A place: a base local plus a (possibly empty) list of projections.
The pass never looks into a projection element, so they are abstracted
as `Nat`. -/
structure Place where
  localBase : Nat
  projection : List Nat
deriving DecidableEq, Repr

/-- Place::as_local: `some` of the base local iff there are no projections. -/
def Place.as_local (p : Place) : Option Nat :=
  if p.projection = [] then some p.localBase else none

/-- Operand: the pass distinguishes `Move` of a place from everything else. -/
inductive Operand where
  | move (p : Place)
  | copy (p : Place)
  | const (n : Nat)
deriving DecidableEq, Repr

/-- Rvalue: the pass only matches `Rvalue::Discriminant(place)`; all other
rvalue kinds are abstracted. -/
inductive Rvalue where
  | discriminant (place : Place)
  | otherRvalue (n : Nat)
deriving DecidableEq, Repr

/-- StatementKind: the pass only matches `Assign(place, rvalue)`; all other
statement kinds are abstracted. -/
inductive StatementKind where
  | assign (lhs : Place) (rhs : Rvalue)
  | otherStmt (n : Nat)
deriving DecidableEq, Repr

/-- TerminatorKind: the pass only matches
`SwitchInt { discr, values, targets, .. }`; all other kinds are abstracted.
`values` are the matched constants, `targets` the successor blocks; MIR's
invariant (not enforced by the data type) is
`targets.length = values.length + 1`, the last target being "otherwise". -/
inductive TerminatorKind where
  | switchInt (discr : Operand) (values : List Nat) (targets : List Nat)
  | otherTerm (n : Nat)
deriving DecidableEq, Repr

/-- A basic block: ordered statements (we store each statement's kind) and
exactly one terminator. -/
structure BasicBlockData where
  statements : List StatementKind
  terminator : TerminatorKind
deriving DecidableEq, Repr

/-- A function body: basic blocks indexed by position, and the declared type
of each local, indexed by position. -/
structure Body where
  basic_blocks : List BasicBlockData
  local_decls : List Ty

/-- MirSource: the pass reads only whether this is a promoted-constant body
(`source.promoted.is_some()`); `def_id` is carried along for fidelity. -/
structure MirSource where
  def_id : Nat
  promoted : Option Nat

/-- Translation of `get_discriminant_local`: the switched-on local, when the
terminator is SwitchInt whose discriminant operand moves a bare local. -/
def get_discriminant_local : TerminatorKind → Option Nat
  | TerminatorKind.switchInt (Operand.move p) _ _ => p.as_local
  | _ => none

/-- Body of the eligibility test of `find_eligible_blocks` for one block,
as a function of the switched-on local (if any), the last statement (if any)
and the local declarations: returns the enum type the discriminant is read
from when the block is eligible. -/
def eligTyCore (decls : List Ty) (discrLoc : Option Nat)
    (lastStmt : Option StatementKind) : Option Ty :=
  match discrLoc with
  | some loc =>
    match lastStmt with
    | some (StatementKind.assign l (Rvalue.discriminant place)) =>
      if l.as_local = some loc then
        match place.as_local with
        | some r_local =>
          match decls[r_local]? with
          | some ty => if ty.is_enum then some ty else none
          | none => none
        | none => none
      else none
    | _ => none
  | none => none

/-- The per-block eligibility test of `find_eligible_blocks`:
the statement before the terminator (the last statement, when the statement
list is non-empty) must be an assignment of a discriminant of a bare local
of enum type to the local switched on. -/
def eligTy (decls : List Ty) (bd : BasicBlockData) : Option Ty :=
  eligTyCore decls (get_discriminant_local bd.terminator) bd.statements.getLast?

/-- Translation of `find_eligible_blocks`: all blocks that terminate by
switching on a discriminant, paired with the type the discriminant is read
from, in the body's block order. -/
def find_eligible_blocks (body : Body) : List (Nat × Ty) :=
  body.basic_blocks.enum.filterMap fun p =>
    (eligTy body.local_decls p.2).map fun ty => (p.1, ty)

/-- Translation of `variant_discriminants`.  Note the source's Single arm
returns the variant index cast to u128 (`index.as_u32() as u128`), not the
result of the discriminant-for-variant lookup. -/
def variant_discriminants (layout : TyLayout) (ty : Ty) : List Nat :=
  match layout.variants with
  | Variants.single index => [index]
  | Variants.multiple variants =>
    variants.enum.filterMap fun p =>
      if p.2.abi ≠ Abi.uninhabited
      then some (ty.discriminant_for_variant p.1)
      else none

/-- The terminator rewrite inside `run_pass`'s loop: keep the (value, target)
pairs whose value is allowed, then re-append the popped "otherwise" target.
`none` models a panic: the `unreachable!()` branch for a non-SwitchInt
terminator, or `targets.pop().unwrap()` on an empty target list.  As in the
source, the explicit pairs are `values.iter().zip(targets)` (which stops at
the shorter list) and "otherwise" is the last element of `targets`. -/
def rewriteSwitch (allowed : List Nat) : TerminatorKind → Option TerminatorKind
  | TerminatorKind.switchInt discr values targets =>
    match targets.getLast? with
    | some otherwiseTarget =>
      let matched := (values.zip targets).filter fun vt => allowed.contains vt.1
      some (TerminatorKind.switchInt discr (matched.map Prod.fst)
        (matched.map Prod.snd ++ [otherwiseTarget]))
    | none => none
  | _ => none

/-- The pruned SwitchInt terminator described by the specification: of the
original explicit (value, target) pairs exactly those whose value is in the
allowed set survive, in their original relative order, with the original
otherwise target appended after them; the discriminant operand is kept. -/
def prunedSwitch (allowed : List Nat) (d : Operand) (vs ts : List Nat)
    (ow : Nat) : TerminatorKind :=
  TerminatorKind.switchInt d
    (((vs.zip ts).filter fun vt => allowed.contains vt.1).map Prod.fst)
    ((((vs.zip ts).filter fun vt => allowed.contains vt.1).map Prod.snd) ++ [ow])

/-- The SwitchInt well-formedness invariant of MIR: the target list has
exactly one more element than the value list. -/
def switchTargetsWF : TerminatorKind → Bool
  | TerminatorKind.switchInt _ values targets => targets.length = values.length + 1
  | _ => true

/-- One iteration of `run_pass`'s loop on a block's data: compute the layout
of the discriminant type; on failure `continue` (the block stays unchanged),
otherwise rewrite the SwitchInt terminator. -/
def processBlockData (ty : Ty) (bd : BasicBlockData) : Option BasicBlockData :=
  match ty.layoutResult with
  | none => some bd
  | some layout =>
    match rewriteSwitch (variant_discriminants layout ty) bd.terminator with
    | some t => some { bd with terminator := t }
    | none => none

/-- One iteration of `run_pass`'s loop: index the body at the block
(`body[bb]`, `none` = index panic, impossible for scanner output), process
its data, and store the result back. -/
def processBlock (body : Body) (bb : Nat) (ty : Ty) : Option Body :=
  match body.basic_blocks[bb]? with
  | some bd =>
    match processBlockData ty bd with
    | some bd' => some { body with basic_blocks := body.basic_blocks.set bb bd' }
    | none => none
  | none => none

/-- The loop of `run_pass`: process each (block, type) pair in order,
threading the mutated body through; `none` as soon as one step panics. -/
def run_blocks (pairs : List (Nat × Ty)) (body : Body) : Option Body :=
  pairs.foldlM (fun b p => processBlock b p.1 p.2) body

/-- Translation of `UninhabitedEnumBranching::run_pass`: no-op on promoted
bodies, otherwise fold the per-block rewrite over the eligible blocks.
The result is the transformed body, or `none` when the pass panics. -/
def run_pass (source : MirSource) (body : Body) : Option Body :=
  if source.promoted.isSome then some body
  else run_blocks (find_eligible_blocks body) body

/-! Concrete instances used by witnesses and counterexamples. -/

/-- Shorthand for a bare local place (no projections). -/
def pl (n : Nat) : Place := { localBase := n, projection := [] }

/-- A non-enum type with no layout; used for the switch temporary. -/
def tyOther : Ty :=
  { is_enum := false, layoutResult := none, discriminant_for_variant := fun _ => 0 }

/-- Layout of a two-variant enum whose second variant is uninhabited. -/
def layE : TyLayout :=
  { variants := Variants.multiple [{ abi := Abi.other 0 }, { abi := Abi.uninhabited }] }

/-- A two-variant enum whose second variant is uninhabited
(like E { A(i32), B(Never) }); variant tags equal variant indices. -/
def tyE : Ty :=
  { is_enum := true
    layoutResult := some layE
    discriminant_for_variant := fun i => i }

/-- A single-variant enum with an explicit non-zero discriminant
(like E { A = 5 }): layout is Single with variant index 0, and the
discriminant-for-variant lookup yields 5. -/
def tyS : Ty :=
  { is_enum := true
    layoutResult := some { variants := Variants.single 0 }
    discriminant_for_variant := fun _ => 5 }

/-- An enum whose layout computation fails (e.g. unresolved generic). -/
def tyNoLayout : Ty :=
  { is_enum := true, layoutResult := none, discriminant_for_variant := fun i => i }

/-- A trivial non-switch block. -/
def blkRet (n : Nat) : BasicBlockData :=
  { statements := [], terminator := TerminatorKind.otherTerm n }

/-- An eligible switch block: assigns the discriminant of local 1 to
local 0, then switches on the moved local 0 with values 0 and 1. -/
def blkSwitch : BasicBlockData :=
  { statements := [StatementKind.assign (pl 0) (Rvalue.discriminant (pl 1))]
    terminator := TerminatorKind.switchInt (Operand.move (pl 0)) [0, 1] [1, 2, 3] }

/-- Scenario A body: block 0 switches on the discriminant of local 1 of
type tyE; blocks 1-3 are the branch targets. -/
def bodyA : Body :=
  { basic_blocks := [blkSwitch, blkRet 0, blkRet 1, blkRet 2]
    local_decls := [tyOther, tyE] }

/-- A non-promoted invocation context. -/
def srcA : MirSource := { def_id := 0, promoted := none }

/-- Scenario A's switch block after the pass: the pair (1, target 2) for
the uninhabited variant is pruned; the otherwise target 3 is re-appended. -/
def blkSwitchA' : BasicBlockData :=
  { statements := [StatementKind.assign (pl 0) (Rvalue.discriminant (pl 1))]
    terminator := TerminatorKind.switchInt (Operand.move (pl 0)) [0] [1, 3] }

/-- Scenario A body after the pass. -/
def bodyA' : Body :=
  { basic_blocks := [blkSwitchA', blkRet 0, blkRet 1, blkRet 2]
    local_decls := [tyOther, tyE] }

/-- A promoted-constant invocation context. -/
def srcP : MirSource := { def_id := 0, promoted := some 0 }

/-- Scenario B's switch block: same eligible shape, switching on local 0
assigned from the discriminant of local 1. -/
def blkSwitchB : BasicBlockData :=
  { statements := [StatementKind.assign (pl 0) (Rvalue.discriminant (pl 1))]
    terminator := TerminatorKind.switchInt (Operand.move (pl 0)) [0] [1, 2] }

/-- Scenario B body: the switched-on enum type has no computable layout,
so the pass must skip the block. -/
def bodyB : Body :=
  { basic_blocks := [blkSwitchB, blkRet 0, blkRet 1]
    local_decls := [tyOther, tyNoLayout] }

/-- Scenario C's switch block: its only explicit value 1 names the
uninhabited variant of tyE, so pruning removes every explicit pair. -/
def blkSwitchC : BasicBlockData :=
  { statements := [StatementKind.assign (pl 0) (Rvalue.discriminant (pl 1))]
    terminator := TerminatorKind.switchInt (Operand.move (pl 0)) [1] [1, 2] }

/-- Scenario C body before the pass. -/
def bodyC : Body :=
  { basic_blocks := [blkSwitchC, blkRet 0, blkRet 1]
    local_decls := [tyOther, tyE] }

/-- Scenario C body after the pass: the switch keeps only the otherwise
target and stays a SwitchInt. -/
def bodyC' : Body :=
  { basic_blocks :=
      [{ statements := [StatementKind.assign (pl 0) (Rvalue.discriminant (pl 1))]
         terminator := TerminatorKind.switchInt (Operand.move (pl 0)) [] [2] },
       blkRet 0, blkRet 1]
    local_decls := [tyOther, tyE] }

/-- The eligibility pattern of the specification, stated block-wise over the
body: the terminator is a SwitchInt moving a bare local L, the statement
list is non-empty and ends with an assignment of the discriminant of a bare
local P of declared enum type to L. -/
def EligibleSpec (body : Body) (i : Nat) (ty : Ty) : Prop :=
  ∃ bd L,
    body.basic_blocks[i]? = some bd ∧
    (∃ p vs ts, bd.terminator = TerminatorKind.switchInt (Operand.move p) vs ts ∧
      p.as_local = some L) ∧
    bd.statements ≠ [] ∧
    (∃ lhs P PL,
      bd.statements.getLast? =
        some (StatementKind.assign lhs (Rvalue.discriminant P)) ∧
      lhs.as_local = some L ∧
      P.as_local = some PL ∧
      body.local_decls[PL]? = some ty ∧
      ty.is_enum = true)


/-! List helper lemmas. -/

/-- Setting an index to the value it already holds leaves the list unchanged. -/
theorem set_self_of_getElem? {α : Type _} {l : List α} {n : Nat} {a : α}
    (h : l[n]? = some a) : l.set n a = l := by
  induction l generalizing n with
  | nil => simp at h
  | cons x xs ih =>
    cases n with
    | zero => simp at h; simp [h]
    | succ m =>
      simp only [List.getElem?_cons_succ] at h
      simp [List.set, ih h]

/-- Zipping the first components of a pair list against its second components
with one extra element appended reproduces the pair list (the zip stops at
the shorter side). -/
theorem zip_map_fst_snd_concat {α β : Type _} (m : List (α × β)) (x : β) :
    (m.map Prod.fst).zip (m.map Prod.snd ++ [x]) = m := by
  induction m with
  | nil => simp
  | cons p t ih => simp [ih]

/-- Mapping first components over an index-preserving filterMap yields a
sublist of the original first components. -/
theorem filterMap_preserving_fst_sublist {α γ : Type _} (l : List (Nat × α))
    (f : α → Option γ) :
    ((l.filterMap fun p => (f p.2).map fun c => (p.1, c)).map Prod.fst).Sublist
      (l.map Prod.fst) := by
  induction l with
  | nil => simp
  | cons a t ih =>
    cases h : f a.2 with
    | none =>
      simp only [List.filterMap_cons, h, Option.map_none', List.map_cons]
      exact ih.cons _
    | some c =>
      simp only [List.filterMap_cons, h, Option.map_some', List.map_cons]
      exact ih.cons₂ _

/-! Eligibility-scanner lemmas. -/

/-- Membership in the scanner output, characterised block-wise. -/
theorem mem_find_eligible_blocks {body : Body} {i : Nat} {ty : Ty} :
    (i, ty) ∈ find_eligible_blocks body ↔
      ∃ bd, body.basic_blocks[i]? = some bd ∧
        eligTy body.local_decls bd = some ty := by
  unfold find_eligible_blocks
  rw [List.mem_filterMap]
  constructor
  · rintro ⟨⟨j, bd⟩, hmem, hf⟩
    rw [List.mem_enum_iff_getElem?] at hmem
    simp only [Option.map_eq_some'] at hf
    obtain ⟨ty', h1, h2⟩ := hf
    simp only [Prod.mk.injEq] at h2
    obtain ⟨rfl, rfl⟩ := h2
    exact ⟨bd, hmem, h1⟩
  · rintro ⟨bd, hbd, helig⟩
    exact ⟨(i, bd), List.mem_enum_iff_getElem?.mpr hbd, by simp [helig]⟩

/-- The scanner reports blocks in the body's natural order: the block
identifiers in its output are strictly increasing. -/
theorem find_eligible_blocks_pairwise (body : Body) :
    ((find_eligible_blocks body).map Prod.fst).Pairwise (· < ·) := by
  have hs := filterMap_preserving_fst_sublist body.basic_blocks.enum
    (eligTy body.local_decls)
  rw [List.enum_map_fst] at hs
  exact (List.pairwise_lt_range _).sublist hs

/-- Characterisation of get_discriminant_local: it answers the switched-on
local exactly for a SwitchInt that moves a bare local. -/
theorem get_discriminant_local_eq_some {t : TerminatorKind} {L : Nat} :
    get_discriminant_local t = some L ↔
      ∃ p vs ts, t = TerminatorKind.switchInt (Operand.move p) vs ts ∧
        p.as_local = some L := by
  cases t with
  | otherTerm n => simp [get_discriminant_local]
  | switchInt d vs ts =>
    cases d with
    | move p => simp [get_discriminant_local]
    | copy p => simp [get_discriminant_local]
    | const n => simp [get_discriminant_local]

/-- Characterisation of the per-block eligibility test. -/
theorem eligTy_eq_some {decls : List Ty} {bd : BasicBlockData} {ty : Ty} :
    eligTy decls bd = some ty ↔
      ∃ L, get_discriminant_local bd.terminator = some L ∧
        ∃ lhs P PL,
          bd.statements.getLast? =
            some (StatementKind.assign lhs (Rvalue.discriminant P)) ∧
          lhs.as_local = some L ∧ P.as_local = some PL ∧
          decls[PL]? = some ty ∧ ty.is_enum = true := by
  unfold eligTy eligTyCore
  cases hg : get_discriminant_local bd.terminator with
  | none => simp
  | some loc =>
    cases hl : bd.statements.getLast? with
    | none => simp
    | some s =>
      cases s with
      | otherStmt n => simp
      | assign lhs rhs =>
        cases rhs with
        | otherRvalue n => simp
        | discriminant P =>
          by_cases hlhs : lhs.as_local = some loc
          · cases hP : P.as_local with
            | none => simp [hlhs, hP]
            | some PL =>
              cases hd : decls[PL]? with
              | none => simp [hlhs, hP, hd]
              | some ty' =>
                by_cases he : ty'.is_enum
                · simp only [hlhs, hP, hd, he, if_true]
                  constructor
                  · rintro h
                    injection h with h
                    subst h
                    exact ⟨loc, rfl, lhs, P, PL, rfl, hlhs, hP, hd, he⟩
                  · rintro ⟨L, hL, lhs', P', PL', hstmt, hlhs', hP', hd', he'⟩
                    injection hL with hL
                    subst hL
                    injection hstmt with hstmt
                    injection hstmt with h1 h2
                    subst h1
                    injection h2 with h2
                    subst h2
                    rw [hP] at hP'
                    injection hP' with hP'
                    subst hP'
                    rw [hd] at hd'
                    exact hd'
                · simp only [hlhs, hP, hd, he, if_true, if_false]
                  constructor
                  · rintro h
                    simp [he] at h
                  · rintro ⟨L, hL, lhs', P', PL', hstmt, hlhs', hP', hd', he'⟩
                    injection hL with hL
                    subst hL
                    injection hstmt with hstmt
                    injection hstmt with h1 h2
                    subst h1
                    injection h2 with h2
                    subst h2
                    rw [hP] at hP'
                    injection hP' with hP'
                    subst hP'
                    rw [hd] at hd'
                    injection hd' with hd'
                    subst hd'
                    exact absurd he' he
          · simp only [hlhs, if_false]
            constructor
            · rintro h
              simp [hlhs] at h
            · rintro ⟨L, hL, lhs', P', PL', hstmt, hlhs', hP', hd', he'⟩
              injection hL with hL
              subst hL
              injection hstmt with hstmt
              injection hstmt with h1 h2
              subst h1
              exact absurd hlhs' hlhs

/-- C2: the eligibility scanner selects a block if and only if its
terminator is a SwitchInt on a moved bare local L, the statement list is
non-empty, its last statement assigns Discriminant(P) to L, and P is a bare
local whose declared type is an enum; the selected (block, type) pairs come
in the body's natural block order.  The scanner is a pure function of the
body, so it mutates nothing. -/
theorem find_eligible_blocks_correct (body : Body) :
    (∀ i ty, ((i, ty) ∈ find_eligible_blocks body ↔ EligibleSpec body i ty)) ∧
    ((find_eligible_blocks body).map Prod.fst).Pairwise (· < ·) := by
  refine ⟨fun i ty => ?_, find_eligible_blocks_pairwise body⟩
  rw [mem_find_eligible_blocks]
  unfold EligibleSpec
  constructor
  · rintro ⟨bd, hbd, helig⟩
    rw [eligTy_eq_some] at helig
    obtain ⟨L, hg, lhs, P, PL, hlast, hlhs, hP, hdecl, henum⟩ := helig
    have hterm := get_discriminant_local_eq_some.mp hg
    refine ⟨bd, L, hbd, hterm, ?_, lhs, P, PL, hlast, hlhs, hP, hdecl, henum⟩
    intro hnil
    rw [hnil] at hlast
    simp at hlast
  · rintro ⟨bd, L, hbd, hterm, hne, lhs, P, PL, hlast, hlhs, hP, hdecl, henum⟩
    exact ⟨bd, hbd, eligTy_eq_some.mpr
      ⟨L, get_discriminant_local_eq_some.mpr hterm,
        lhs, P, PL, hlast, hlhs, hP, hdecl, henum⟩⟩

/-! Rewriter and orchestration lemmas. -/

/-- A successful processBlock step reads the indexed block, rewrites its
data, and stores the result back at the same index. -/
theorem processBlock_eq_some {b : Body} {i : Nat} {ty : Ty} {b₁ : Body}
    (h : processBlock b i ty = some b₁) :
    ∃ bd bd', b.basic_blocks[i]? = some bd ∧ processBlockData ty bd = some bd' ∧
      b₁ = { b with basic_blocks := b.basic_blocks.set i bd' } := by
  cases hbd : b.basic_blocks[i]? with
  | none =>
    simp only [processBlock, hbd] at h
    exact absurd h (by simp)
  | some bd =>
    cases hpd : processBlockData ty bd with
    | none =>
      simp only [processBlock, hbd, hpd] at h
      exact absurd h (by simp)
    | some bd' =>
      simp only [processBlock, hbd, hpd] at h
      injection h with h
      exact ⟨bd, bd', rfl, hpd, h.symm⟩

/-- Central description of the rewriting loop: with distinct block indices,
local declarations and block count are preserved, non-listed blocks are
untouched, and each listed block ends as the rewrite of its original data. -/
theorem run_blocks_spec {pairs : List (Nat × Ty)} {b b' : Body}
    (hnd : (pairs.map Prod.fst).Nodup)
    (h : run_blocks pairs b = some b') :
    b'.local_decls = b.local_decls ∧
    b'.basic_blocks.length = b.basic_blocks.length ∧
    (∀ i, i ∉ pairs.map Prod.fst → b'.basic_blocks[i]? = b.basic_blocks[i]?) ∧
    (∀ q ∈ pairs, ∃ bd bd', b.basic_blocks[q.1]? = some bd ∧
       processBlockData q.2 bd = some bd' ∧ b'.basic_blocks[q.1]? = some bd') := by
  induction pairs generalizing b with
  | nil =>
    unfold run_blocks at h
    simp only [List.foldlM_nil] at h
    injection h with h
    subst h
    exact ⟨rfl, rfl, fun _ _ => rfl, fun q hq => absurd hq (List.not_mem_nil q)⟩
  | cons q rest ih =>
    obtain ⟨i, ty⟩ := q
    unfold run_blocks at h
    rw [List.foldlM_cons] at h
    cases hpb : processBlock b i ty with
    | none => rw [hpb] at h; exact absurd h (by simp)
    | some b₁ =>
      rw [hpb] at h
      simp only [Option.bind_eq_bind, Option.some_bind] at h
      obtain ⟨bd, bd', hbd, hpd, rfl⟩ := processBlock_eq_some hpb
      simp only [List.map_cons, List.nodup_cons] at hnd
      obtain ⟨hni, hnd'⟩ := hnd
      have hlt : i < b.basic_blocks.length := by
        obtain ⟨hlt, -⟩ := List.getElem?_eq_some_iff.mp hbd
        exact hlt
      have ih' := ih hnd' h
      refine ⟨ih'.1, ih'.2.1.trans (by simp), ?_, ?_⟩
      · intro j hj
        simp only [List.map_cons, List.mem_cons] at hj
        push_neg at hj
        rw [ih'.2.2.1 j hj.2]
        exact List.getElem?_set_ne (fun hij => hj.1 hij.symm)
      · intro q hq
        rcases List.mem_cons.mp hq with hq | hq
        · subst hq
          refine ⟨bd, bd', hbd, hpd, ?_⟩
          rw [ih'.2.2.1 i hni]
          exact List.getElem?_set_self hlt
        · obtain ⟨bd₂, bd₂', hbd₂, hpd₂, hb'₂⟩ := ih'.2.2.2 q hq
          have hne : i ≠ q.1 := by
            intro hiq
            exact hni (hiq ▸ List.mem_map_of_mem Prod.fst hq)
          rw [List.getElem?_set_ne hne] at hbd₂
          exact ⟨bd₂, bd₂', hbd₂, hpd₂, hb'₂⟩

/-- The rewriting loop succeeds whenever every listed block exists and its
per-block rewrite succeeds on the original data. -/
theorem run_blocks_isSome {pairs : List (Nat × Ty)} {b : Body}
    (hnd : (pairs.map Prod.fst).Nodup)
    (hok : ∀ q ∈ pairs, ∃ bd, b.basic_blocks[q.1]? = some bd ∧
      (processBlockData q.2 bd).isSome = true) :
    (run_blocks pairs b).isSome = true := by
  induction pairs generalizing b with
  | nil => unfold run_blocks; simp
  | cons q rest ih =>
    obtain ⟨i, ty⟩ := q
    simp only [List.map_cons, List.nodup_cons] at hnd
    obtain ⟨hni, hnd'⟩ := hnd
    obtain ⟨bd, hbd, hpd⟩ := hok (i, ty) (List.mem_cons_self _ _)
    obtain ⟨bd', hbd'⟩ := Option.isSome_iff_exists.mp hpd
    have hpb : processBlock b i ty =
        some { b with basic_blocks := b.basic_blocks.set i bd' } := by
      simp only [processBlock, hbd, hbd']
    unfold run_blocks
    rw [List.foldlM_cons, hpb]
    simp only [Option.bind_eq_bind, Option.some_bind]
    apply ih hnd'
    intro q hq
    obtain ⟨bd₂, hbd₂, hpd₂⟩ := hok q (List.mem_cons_of_mem _ hq)
    have hne : i ≠ q.1 := by
      intro hiq
      exact hni (hiq ▸ List.mem_map_of_mem Prod.fst hq)
    refine ⟨bd₂, ?_, hpd₂⟩
    show (b.basic_blocks.set i bd')[q.1]? = some bd₂
    rw [List.getElem?_set_ne hne]
    exact hbd₂

/-- Blocks already in rewritten form are untouched by the loop. -/
theorem run_blocks_fixpoint {pairs : List (Nat × Ty)} {b : Body}
    (hfix : ∀ q ∈ pairs, ∃ bd, b.basic_blocks[q.1]? = some bd ∧
      processBlockData q.2 bd = some bd) :
    run_blocks pairs b = some b := by
  induction pairs with
  | nil => unfold run_blocks; simp
  | cons q rest ih =>
    obtain ⟨i, ty⟩ := q
    obtain ⟨bd, hbd, hpd⟩ := hfix (i, ty) (List.mem_cons_self _ _)
    have hpb : processBlock b i ty = some b := by
      simp only [processBlock, hbd, hpd, set_self_of_getElem? hbd]
    unfold run_blocks
    rw [List.foldlM_cons, hpb]
    simp only [Option.bind_eq_bind, Option.some_bind]
    exact ih (fun q hq => hfix q (List.mem_cons_of_mem _ hq))

/-- A successful terminator rewrite keeps the SwitchInt shape and the
discriminant operand. -/
theorem rewriteSwitch_shape {allowed : List Nat} {d : Operand} {vs ts : List Nat}
    {t' : TerminatorKind}
    (h : rewriteSwitch allowed (TerminatorKind.switchInt d vs ts) = some t') :
    ∃ vs' ts', t' = TerminatorKind.switchInt d vs' ts' := by
  cases hl : ts.getLast? with
  | none =>
    simp only [rewriteSwitch, hl] at h
    exact absurd h (by simp)
  | some ow =>
    simp only [rewriteSwitch, hl] at h
    injection h with h
    exact ⟨_, _, h.symm⟩

/-- The per-block rewrite never changes a block's statements. -/
theorem processBlockData_statements {ty : Ty} {bd bd' : BasicBlockData}
    (h : processBlockData ty bd = some bd') :
    bd'.statements = bd.statements := by
  cases hlay : ty.layoutResult with
  | none =>
    simp only [processBlockData, hlay] at h
    injection h with h
    rw [← h]
  | some lay =>
    cases hrw : rewriteSwitch (variant_discriminants lay ty) bd.terminator with
    | none =>
      simp only [processBlockData, hlay, hrw] at h
      exact absurd h (by simp)
    | some t =>
      simp only [processBlockData, hlay, hrw] at h
      injection h with h
      rw [← h]

/-- The per-block rewrite never changes which local the terminator
switches on. -/
theorem processBlockData_discr_local {ty : Ty} {bd bd' : BasicBlockData}
    (h : processBlockData ty bd = some bd') :
    get_discriminant_local bd'.terminator = get_discriminant_local bd.terminator := by
  cases hlay : ty.layoutResult with
  | none =>
    simp only [processBlockData, hlay] at h
    injection h with h
    rw [← h]
  | some lay =>
    cases hrw : rewriteSwitch (variant_discriminants lay ty) bd.terminator with
    | none =>
      simp only [processBlockData, hlay, hrw] at h
      exact absurd h (by simp)
    | some t =>
      simp only [processBlockData, hlay, hrw] at h
      injection h with h
      rw [← h]
      cases hterm : bd.terminator with
      | otherTerm n => rw [hterm] at hrw; simp [rewriteSwitch] at hrw
      | switchInt d vs ts =>
        rw [hterm] at hrw
        obtain ⟨vs', ts', rfl⟩ := rewriteSwitch_shape hrw
        cases d <;> simp [get_discriminant_local]

/-- Explicit computation of the per-block rewrite on an eligible block with
a computable layout and a non-empty target list. -/
theorem processBlockData_eq_rewrite {ty : Ty} {lay : TyLayout} {bd : BasicBlockData}
    {d : Operand} {vs ts : List Nat} {ow : Nat}
    (hlay : ty.layoutResult = some lay)
    (hterm : bd.terminator = TerminatorKind.switchInt d vs ts)
    (how : ts.getLast? = some ow) :
    processBlockData ty bd =
      some { bd with
        terminator := prunedSwitch (variant_discriminants lay ty) d vs ts ow } := by
  simp only [processBlockData, hlay, hterm, rewriteSwitch, how, prunedSwitch]

/-- The terminator rewrite is idempotent: a rewritten SwitchInt passes
through the rewrite unchanged. -/
theorem rewriteSwitch_idem {allowed : List Nat} {t t' : TerminatorKind}
    (h : rewriteSwitch allowed t = some t') :
    rewriteSwitch allowed t' = some t' := by
  cases t with
  | otherTerm n => simp [rewriteSwitch] at h
  | switchInt d vs ts =>
    cases how : ts.getLast? with
    | none =>
      simp only [rewriteSwitch, how] at h
      exact absurd h (by simp)
    | some ow =>
      simp only [rewriteSwitch, how] at h
      injection h with h
      subst h
      have hz : (((vs.zip ts).filter fun vt => allowed.contains vt.1).map Prod.fst).zip
          ((((vs.zip ts).filter fun vt => allowed.contains vt.1).map Prod.snd) ++ [ow]) =
          (vs.zip ts).filter fun vt => allowed.contains vt.1 :=
        zip_map_fst_snd_concat _ ow
      have hf : (((vs.zip ts).filter fun vt => allowed.contains vt.1).filter
          fun vt => allowed.contains vt.1) =
          (vs.zip ts).filter fun vt => allowed.contains vt.1 :=
        List.filter_eq_self.mpr fun a ha => (List.mem_filter.mp ha).2
      simp only [rewriteSwitch, List.getLast?_concat, hz, hf]

/-- The per-block rewrite is idempotent. -/
theorem processBlockData_idem {ty : Ty} {bd bd' : BasicBlockData}
    (h : processBlockData ty bd = some bd') :
    processBlockData ty bd' = some bd' := by
  cases hlay : ty.layoutResult with
  | none => simp only [processBlockData, hlay]
  | some lay =>
    cases hrw : rewriteSwitch (variant_discriminants lay ty) bd.terminator with
    | none =>
      simp only [processBlockData, hlay, hrw] at h
      exact absurd h (by simp)
    | some t =>
      simp only [processBlockData, hlay, hrw] at h
      injection h with h
      subst h
      have ht : ({ bd with terminator := t } : BasicBlockData).terminator = t := rfl
      simp only [processBlockData, hlay, ht, rewriteSwitch_idem hrw]

/-- Eligibility of a block depends only on its statements and on which
local its terminator switches on. -/
theorem eligTy_congr {decls : List Ty} {bd₁ bd₂ : BasicBlockData}
    (hs : bd₂.statements = bd₁.statements)
    (hg : get_discriminant_local bd₂.terminator =
      get_discriminant_local bd₁.terminator) :
    eligTy decls bd₂ = eligTy decls bd₁ := by
  unfold eligTy
  rw [hs, hg]

/-- Congruence for the scanner shape: two position-wise related block lists
produce the same filterMap of eligibility entries. -/
theorem enumFrom_filterMap_congr {α γ : Type _} (f₁ f₂ : α → Option γ) :
    ∀ (l₁ l₂ : List α) (n : Nat),
      l₁.length = l₂.length →
      (∀ (i : Nat) a₁ a₂, l₁[i]? = some a₁ → l₂[i]? = some a₂ → f₁ a₁ = f₂ a₂) →
      ((l₁.enumFrom n).filterMap fun p => (f₁ p.2).map fun c => (p.1, c)) =
      ((l₂.enumFrom n).filterMap fun p => (f₂ p.2).map fun c => (p.1, c)) := by
  intro l₁
  induction l₁ with
  | nil =>
    intro l₂ n hlen hpt
    cases l₂ with
    | nil => rfl
    | cons a₂ t₂ => simp at hlen
  | cons a₁ t₁ ih =>
    intro l₂ n hlen hpt
    cases l₂ with
    | nil => simp at hlen
    | cons a₂ t₂ =>
      have ha : f₁ a₁ = f₂ a₂ := hpt 0 a₁ a₂ (by simp) (by simp)
      have ht := ih t₂ (n + 1) (by simpa using hlen)
        (fun i b₁ b₂ h1 h2 => hpt (i + 1) b₁ b₂ (by simpa using h1) (by simpa using h2))
      simp only [List.enumFrom_cons, List.filterMap_cons, ha, ht]

/-- After a successful non-promoted run, the scanner finds exactly the same
(block, type) pairs again and the local declarations are unchanged. -/
theorem run_blocks_scanner_stable {b b' : Body}
    (hnd : ((find_eligible_blocks b).map Prod.fst).Nodup)
    (h : run_blocks (find_eligible_blocks b) b = some b') :
    find_eligible_blocks b' = find_eligible_blocks b ∧
    b'.local_decls = b.local_decls := by
  obtain ⟨hld, hlen, hout, hin⟩ := run_blocks_spec hnd h
  refine ⟨?_, hld⟩
  unfold find_eligible_blocks
  rw [hld]
  have hpt : ∀ (i : Nat) a₁ a₂, b'.basic_blocks[i]? = some a₁ →
      b.basic_blocks[i]? = some a₂ →
      eligTy b.local_decls a₁ = eligTy b.local_decls a₂ := by
    intro i a₁ a₂ h1 h2
    by_cases hi : i ∈ (find_eligible_blocks b).map Prod.fst
    · obtain ⟨q, hq, hqi⟩ := List.mem_map.mp hi
      obtain ⟨bd, bd', hbd, hpd, hb'⟩ := hin q hq
      rw [hqi] at hbd hb'
      rw [h1] at hb'
      injection hb' with hb'
      rw [h2] at hbd
      injection hbd with hbd
      subst hb'
      subst hbd
      exact eligTy_congr (processBlockData_statements hpd)
        (processBlockData_discr_local hpd)
    · rw [hout i hi, h2] at h1
      injection h1 with h1
      rw [h1]
  have hcongr := enumFrom_filterMap_congr (eligTy b.local_decls)
    (eligTy b.local_decls) b'.basic_blocks b.basic_blocks 0 hlen hpt
  simpa [List.enum] using hcongr

/-- Shared helper: in a non-promoted run, every eligible block with a
computable layout and well-formed SwitchInt ends with the pruned switch
computed from its original terminator. -/
theorem run_pass_eligible_rewrite {source : MirSource} {body body' : Body}
    {bb : Nat} {ty : Ty} {bd : BasicBlockData} {d : Operand} {vs ts : List Nat}
    {lay : TyLayout}
    (hp : source.promoted = none)
    (hmem : (bb, ty) ∈ find_eligible_blocks body)
    (hbd : body.basic_blocks[bb]? = some bd)
    (hterm : bd.terminator = TerminatorKind.switchInt d vs ts)
    (hlay : ty.layoutResult = some lay)
    (hlen : ts.length = vs.length + 1)
    (hrun : run_pass source body = some body') :
    ∃ ow, ts.getLast? = some ow ∧
      body'.basic_blocks[bb]? =
        some { bd with
          terminator := prunedSwitch (variant_discriminants lay ty) d vs ts ow } := by
  have hnil : ts ≠ [] := by
    intro h
    rw [h] at hlen
    simp at hlen
  obtain ⟨ow, how⟩ := Option.isSome_iff_exists.mp (List.getLast?_isSome.mpr hnil)
  refine ⟨ow, how, ?_⟩
  unfold run_pass at hrun
  rw [hp] at hrun
  simp only [Option.isSome_none, Bool.false_eq_true, if_false] at hrun
  have hnd : ((find_eligible_blocks body).map Prod.fst).Nodup :=
    (find_eligible_blocks_pairwise body).imp Nat.ne_of_lt
  obtain ⟨-, -, -, hin⟩ := run_blocks_spec hnd hrun
  obtain ⟨bd₀, bd₀', hbd₀, hpd₀, hb'⟩ := hin (bb, ty) hmem
  rw [hbd] at hbd₀
  injection hbd₀ with hbd₀
  subst hbd₀
  rw [processBlockData_eq_rewrite hlay hterm how] at hpd₀
  injection hpd₀ with hpd₀
  rw [← hpd₀] at hb'
  exact hb'

/-- C4: for every eligible block (with computable layout and the SwitchInt
target-list invariant), after a non-promoted run of the pass the surviving
explicit (value, target) pairs of its SwitchInt terminator are exactly the
original pairs whose value lies in the allowed-tag set, in their original
relative order, followed by the original otherwise target appended last;
the discriminant operand (and everything else in the block) is unchanged. -/
theorem run_pass_prunes_to_allowed_set (source : MirSource) (body body' : Body)
    (bb : Nat) (ty : Ty) (bd : BasicBlockData) (d : Operand) (vs ts : List Nat)
    (lay : TyLayout)
    (hp : source.promoted = none)
    (hmem : (bb, ty) ∈ find_eligible_blocks body)
    (hbd : body.basic_blocks[bb]? = some bd)
    (hterm : bd.terminator = TerminatorKind.switchInt d vs ts)
    (hlay : ty.layoutResult = some lay)
    (hlen : ts.length = vs.length + 1)
    (hrun : run_pass source body = some body') :
    ∃ ow, ts.getLast? = some ow ∧
      body'.basic_blocks[bb]? =
        some { bd with
          terminator := prunedSwitch (variant_discriminants lay ty) d vs ts ow } :=
  run_pass_eligible_rewrite hp hmem hbd hterm hlay hlen hrun

/-- C4 witness: scenario A evaluated concretely. -/
theorem run_pass_prunes_to_allowed_set_witness :
    ∃ ow, ([1, 2, 3] : List Nat).getLast? = some ow ∧
      bodyA'.basic_blocks[0]? =
        some { blkSwitch with
          terminator := prunedSwitch (variant_discriminants layE tyE) (Operand.move (pl 0)) [0, 1] [1, 2, 3] ow } := by
  apply run_pass_prunes_to_allowed_set srcA bodyA bodyA' 0 tyE blkSwitch
    (Operand.move (pl 0)) [0, 1] [1, 2, 3] layE rfl ?_ rfl rfl rfl rfl rfl
  rw [show find_eligible_blocks bodyA = [(0, tyE)] from rfl]
  exact List.mem_singleton.mpr rfl

/-- C7: for every eligible block where pruning removes all explicit
(value, target) pairs, the resulting terminator is still a SwitchInt with an
empty value list and only the otherwise target. -/
theorem fully_pruned_switch_stays_switchInt (source : MirSource)
    (body body' : Body) (bb : Nat) (ty : Ty) (bd : BasicBlockData) (d : Operand)
    (vs ts : List Nat) (lay : TyLayout)
    (hp : source.promoted = none)
    (hmem : (bb, ty) ∈ find_eligible_blocks body)
    (hbd : body.basic_blocks[bb]? = some bd)
    (hterm : bd.terminator = TerminatorKind.switchInt d vs ts)
    (hlay : ty.layoutResult = some lay)
    (hlen : ts.length = vs.length + 1)
    (hnone : ∀ v ∈ vs, (variant_discriminants lay ty).contains v = false)
    (hrun : run_pass source body = some body') :
    ∃ ow, ts.getLast? = some ow ∧
      body'.basic_blocks[bb]? =
        some { bd with terminator := TerminatorKind.switchInt d [] [ow] } := by
  obtain ⟨ow, how, hb'⟩ := run_pass_eligible_rewrite hp hmem hbd hterm hlay hlen hrun
  refine ⟨ow, how, ?_⟩
  have hfe : ((vs.zip ts).filter fun vt =>
      (variant_discriminants lay ty).contains vt.1) = [] := by
    rw [List.filter_eq_nil_iff]
    intro vt hvt
    have hv := (List.of_mem_zip hvt).1
    simpa using hnone vt.1 hv
  rw [show prunedSwitch (variant_discriminants lay ty) d vs ts ow =
      TerminatorKind.switchInt d [] [ow] by unfold prunedSwitch; rw [hfe]; simp] at hb'
  exact hb'

/-- C7 witness: scenario C evaluated concretely. -/
theorem fully_pruned_switch_stays_switchInt_witness :
    ∃ ow, ([1, 2] : List Nat).getLast? = some ow ∧
      bodyC'.basic_blocks[0]? =
        some { blkSwitchC with terminator := TerminatorKind.switchInt (Operand.move (pl 0)) [] [ow] } := by
  apply fully_pruned_switch_stays_switchInt srcA bodyC bodyC' 0 tyE blkSwitchC
    (Operand.move (pl 0)) [1] [1, 2] layE rfl ?_ rfl rfl rfl rfl ?_ rfl
  · rw [show find_eligible_blocks bodyC = [(0, tyE)] from rfl]
    exact List.mem_singleton.mpr rfl
  · intro v hv
    rw [show (v ∈ [1]) ↔ v = 1 from List.mem_singleton] at hv
    subst hv
    rfl

/-- C1 (counter-evidence): for the single-variant enum tyS, modelling
E { A = 5 } (layout Single with variant index 0, discriminant-for-variant
lookup yielding raw tag 5), the computation returns the variant index 0 and
not the one-element set of the tag obtained via the discriminant-for-variant
lookup, contrary to the claim. -/
theorem variant_discriminants_single_uses_index :
    variant_discriminants { variants := Variants.single 0 } tyS = [0] ∧
    tyS.discriminant_for_variant 0 = 5 ∧
    variant_discriminants { variants := Variants.single 0 } tyS ≠
      [tyS.discriminant_for_variant 0] := by
  refine ⟨rfl, rfl, ?_⟩
  intro h
  simp [variant_discriminants, tyS] at h

/-- C3: for a Multiple layout, the computation returns exactly the raw tag
values, obtained via the discriminant-for-variant lookup, of the declared
variants whose layout is not flagged uninhabited: a tag is in the result iff
it is the looked-up tag of some variant whose abi is not Uninhabited. -/
theorem variant_discriminants_multiple_spec (ty : Ty)
    (vls : List VariantLayout) (t : Nat) :
    t ∈ variant_discriminants { variants := Variants.multiple vls } ty ↔
      ∃ (i : Nat) (vl : VariantLayout), vls[i]? = some vl ∧
        vl.abi ≠ Abi.uninhabited ∧ t = ty.discriminant_for_variant i := by
  show t ∈ vls.enum.filterMap _ ↔ _
  rw [List.mem_filterMap]
  constructor
  · rintro ⟨⟨i, vl⟩, hmem, hf⟩
    rw [List.mem_enum_iff_getElem?] at hmem
    by_cases hab : vl.abi ≠ Abi.uninhabited
    · rw [if_pos hab] at hf
      injection hf with hf
      exact ⟨i, vl, hmem, hab, hf.symm⟩
    · rw [if_neg hab] at hf
      exact absurd hf (by simp)
  · rintro ⟨i, vl, hvl, hab, rfl⟩
    exact ⟨(i, vl), List.mem_enum_iff_getElem?.mpr hvl, by rw [if_pos hab]⟩

/-- C5: when the discriminant type's layout computation fails, the pass
leaves that block unmodified in the output, and the per-block step succeeds
on any block data (so the failure is a silent skip, never an error). -/
theorem layout_failure_silent_skip (source : MirSource) (body body' : Body)
    (bb : Nat) (ty : Ty)
    (hmem : (bb, ty) ∈ find_eligible_blocks body)
    (hlay : ty.layoutResult = none)
    (hrun : run_pass source body = some body') :
    body'.basic_blocks[bb]? = body.basic_blocks[bb]? ∧
    (∀ bd, processBlockData ty bd = some bd) := by
  have hskip : ∀ bd, processBlockData ty bd = some bd := fun bd => by
    simp only [processBlockData, hlay]
  refine ⟨?_, hskip⟩
  by_cases hp : source.promoted.isSome
  · unfold run_pass at hrun
    rw [if_pos hp] at hrun
    injection hrun with hrun
    rw [hrun]
  · unfold run_pass at hrun
    rw [if_neg hp] at hrun
    have hnd : ((find_eligible_blocks body).map Prod.fst).Nodup :=
      (find_eligible_blocks_pairwise body).imp Nat.ne_of_lt
    obtain ⟨-, -, -, hin⟩ := run_blocks_spec hnd hrun
    obtain ⟨bd, bd', hbd, hpd, hb'⟩ := hin (bb, ty) hmem
    rw [hskip bd] at hpd
    injection hpd with hpd
    subst hpd
    rw [hb', hbd]

/-- C5 witness: scenario B evaluated concretely. -/
theorem layout_failure_silent_skip_witness :
    bodyB.basic_blocks[0]? = bodyB.basic_blocks[0]? ∧
    processBlockData tyNoLayout blkSwitchB = some blkSwitchB := by
  have h := layout_failure_silent_skip srcA bodyB bodyB 0 tyNoLayout ?_ rfl rfl
  · exact ⟨h.1, h.2 blkSwitchB⟩
  · rw [show find_eligible_blocks bodyB = [(0, tyNoLayout)] from rfl]
    exact List.mem_singleton.mpr rfl

/-- C6: on a promoted-constant body the pass performs no rewriting at all:
the body is returned unchanged. -/
theorem run_pass_promoted_no_op (source : MirSource) (body : Body)
    (hp : source.promoted.isSome = true) :
    run_pass source body = some body := by
  unfold run_pass
  rw [if_pos hp]

/-- C6 witness: a promoted invocation on scenario A's body. -/
theorem run_pass_promoted_no_op_witness : run_pass srcP bodyA = some bodyA :=
  run_pass_promoted_no_op srcP bodyA rfl

/-- C8: the pass is idempotent (a second application of a successful run
returns its input unchanged) and deterministic (it is a function of its
input: equal inputs give equal outputs). -/
theorem run_pass_idempotent_deterministic :
    (∀ (source : MirSource) (body body' : Body),
      run_pass source body = some body' → run_pass source body' = some body') ∧
    (∀ (source : MirSource) (body₁ body₂ : Body),
      body₁ = body₂ → run_pass source body₁ = run_pass source body₂) := by
  refine ⟨?_, fun source body₁ body₂ h => by rw [h]⟩
  intro source body body' h
  by_cases hp : source.promoted.isSome
  · unfold run_pass at h ⊢
    rw [if_pos hp] at h ⊢
  · unfold run_pass at h ⊢
    rw [if_neg hp] at h ⊢
    have hnd : ((find_eligible_blocks body).map Prod.fst).Nodup :=
      (find_eligible_blocks_pairwise body).imp Nat.ne_of_lt
    obtain ⟨hstable, hld⟩ := run_blocks_scanner_stable hnd h
    rw [hstable]
    obtain ⟨-, -, -, hin⟩ := run_blocks_spec hnd h
    apply run_blocks_fixpoint
    intro q hq
    obtain ⟨bd, bd', hbd, hpd, hb'⟩ := hin q hq
    exact ⟨bd', hb', processBlockData_idem hpd⟩

/-- C8 witness: a second run on scenario A's already-transformed body. -/
theorem run_pass_idempotent_deterministic_witness :
    run_pass srcA bodyA' = some bodyA' :=
  run_pass_idempotent_deterministic.1 srcA bodyA bodyA' rfl

/-- C9: a successful run creates and destroys nothing: local declarations
and block count are unchanged, non-eligible blocks are left identical, and
every block keeps its statements (so only terminators of eligible blocks are
replaced). -/
theorem run_pass_frame (source : MirSource) (body body' : Body)
    (hrun : run_pass source body = some body') :
    body'.local_decls = body.local_decls ∧
    body'.basic_blocks.length = body.basic_blocks.length ∧
    (∀ i : Nat, i ∉ (find_eligible_blocks body).map Prod.fst →
      body'.basic_blocks[i]? = body.basic_blocks[i]?) ∧
    (∀ (i : Nat) (bd bd' : BasicBlockData), body.basic_blocks[i]? = some bd →
      body'.basic_blocks[i]? = some bd' → bd'.statements = bd.statements) := by
  by_cases hp : source.promoted.isSome
  · unfold run_pass at hrun
    rw [if_pos hp] at hrun
    injection hrun with hrun
    subst hrun
    refine ⟨rfl, rfl, fun _ _ => rfl, fun i bd bd' h1 h2 => ?_⟩
    rw [h1] at h2
    injection h2 with h2
    rw [h2]
  · unfold run_pass at hrun
    rw [if_neg hp] at hrun
    have hnd : ((find_eligible_blocks body).map Prod.fst).Nodup :=
      (find_eligible_blocks_pairwise body).imp Nat.ne_of_lt
    obtain ⟨hld, hlen, hout, hin⟩ := run_blocks_spec hnd hrun
    refine ⟨hld, hlen, hout, ?_⟩
    intro i bd bd' h1 h2
    by_cases hi : i ∈ (find_eligible_blocks body).map Prod.fst
    · obtain ⟨q, hq, hqi⟩ := List.mem_map.mp hi
      obtain ⟨bd₀, bd₀', hbd₀, hpd₀, hb'₀⟩ := hin q hq
      rw [hqi] at hbd₀ hb'₀
      rw [h1] at hbd₀
      injection hbd₀ with e1
      rw [h2] at hb'₀
      injection hb'₀ with e2
      subst e1
      subst e2
      exact processBlockData_statements hpd₀
    · rw [hout i hi, h1] at h2
      injection h2 with h2
      rw [h2]

/-- C9 witness: frame facts of scenario A evaluated concretely. -/
theorem run_pass_frame_witness :
    bodyA'.local_decls = bodyA.local_decls ∧
    bodyA'.basic_blocks.length = bodyA.basic_blocks.length ∧
    bodyA'.basic_blocks[1]? = bodyA.basic_blocks[1]? ∧
    blkSwitchA'.statements = blkSwitch.statements := by
  have h := run_pass_frame srcA bodyA bodyA' rfl
  refine ⟨h.1, h.2.1, h.2.2.1 1 ?_, h.2.2.2 0 blkSwitch blkSwitchA' rfl rfl⟩
  rw [show (find_eligible_blocks bodyA).map Prod.fst = [0] from rfl]
  simp

/-- C10: under the SwitchInt invariant (each SwitchInt's target list is one
longer than its value list), the pass never panics: every scanner-selected
block still has the guaranteed SwitchInt shape when the rewriter reaches it,
so the non-SwitchInt branch is unreachable, and popping the trailing
otherwise target always succeeds. -/
theorem run_pass_never_panics (source : MirSource) (body : Body)
    (hwf : ∀ bd ∈ body.basic_blocks, switchTargetsWF bd.terminator = true) :
    (run_pass source body).isSome = true := by
  by_cases hp : source.promoted.isSome
  · unfold run_pass
    rw [if_pos hp]
    rfl
  · unfold run_pass
    rw [if_neg hp]
    have hnd : ((find_eligible_blocks body).map Prod.fst).Nodup :=
      (find_eligible_blocks_pairwise body).imp Nat.ne_of_lt
    apply run_blocks_isSome hnd
    intro q hq
    obtain ⟨i, ty⟩ := q
    obtain ⟨bd, hbd, helig⟩ := mem_find_eligible_blocks.mp hq
    refine ⟨bd, hbd, ?_⟩
    rw [eligTy_eq_some] at helig
    obtain ⟨L, hg, -⟩ := helig
    obtain ⟨p, vs, ts, hterm, -⟩ := get_discriminant_local_eq_some.mp hg
    have hwfbd := hwf bd (List.getElem?_mem hbd)
    rw [hterm] at hwfbd
    simp only [switchTargetsWF, decide_eq_true_eq] at hwfbd
    have hnil : ts ≠ [] := by
      intro h
      rw [h] at hwfbd
      simp at hwfbd
    obtain ⟨ow, how⟩ := Option.isSome_iff_exists.mp (List.getLast?_isSome.mpr hnil)
    cases hlay : ty.layoutResult with
    | none => simp [processBlockData, hlay]
    | some lay => simp [processBlockData, hlay, hterm, rewriteSwitch, how]

/-- C10 witness: scenario A's body satisfies the invariant and the pass
succeeds on it. -/
theorem run_pass_never_panics_witness : (run_pass srcA bodyA).isSome = true :=
  run_pass_never_panics srcA bodyA (by decide)
